import Mathlib

/-!
Shallow embedding of the cryptographic and quota core of the `ssf`
secret-sharing service (Go), and proofs of the specification claims.

Bytes are modelled as natural numbers (< 256 where it matters), byte
slices as `List ℕ`, Go strings as `List Char` when they hold text
(hex strings, file names) and as `List ℕ` when they are used as raw
byte sequences (secrets, plaintexts).

The external cryptographic primitives (AES block encryption, PBKDF2,
the SHAKE-256 extendable-output function) are abstracted as function
parameters bundled in `Crypto`; the properties the code relies on
(output lengths, byte ranges) are collected in `GoodCrypto`.
-/

namespace SSF

/-! ### Hex encoding (Go `encoding/hex`, as used by `Msg.encode`/`Msg.decode`) -/

/-- Lowercase hex alphabet used by Go `hex.EncodeToString`. -/
def hextable : List Char :=
  "0123456789abcdef".toList

/-- One hex digit for a value below 16. -/
def hexDigit (n : ℕ) : Char := hextable.getD n '0'

/-- Go `hex.EncodeToString`: each byte becomes two lowercase hex digits. -/
def hexEncode (bs : List ℕ) : List Char :=
  (bs.map (fun b => [hexDigit (b / 16), hexDigit (b % 16)])).flatten

/-- Go `hex.fromHexChar`: accepts `0-9`, `a-f`, `A-F`. -/
def fromHexChar (c : Char) : Option ℕ :=
  if '0' ≤ c ∧ c ≤ '9' then some (c.toNat - '0'.toNat)
  else if 'a' ≤ c ∧ c ≤ 'f' then some (c.toNat - 'a'.toNat + 10)
  else if 'A' ≤ c ∧ c ≤ 'F' then some (c.toNat - 'A'.toNat + 10)
  else none

/-- Go `hex.DecodeString`: pairs of hex digits; fails on a stray
character or odd length. -/
def hexDecode : List Char → Option (List ℕ)
  | [] => some []
  | [_] => none
  | a :: b :: rest =>
    match fromHexChar a, fromHexChar b, hexDecode rest with
    | some hi, some lo, some tl => some ((hi * 16 + lo) :: tl)
    | _, _, _ => none

/-! ### Errors of the embedded code -/

/-- Error values returned by the embedded functions.
`empty` is `text.ErrEmpty`; `invalid` is the "invalid decryption cipher
block length" error; `keySize` is `aes.KeySizeError`; the `hex*` values
are the wrapped hex-decode errors of `Msg.decode`; `secret` is
`encrypt.ErrSecret`; `hash` is `encrypt.ErrHash`; `sizeLimit` is
`config.ErrSizeLimit`; `ioErr` carries an opaque I/O error token. -/
inductive Err
  | empty | invalid | keySize
  | hexSalt | hexKeyHash | hexDataHash | hexValue
  | secret | hash | sizeLimit
  | ioErr (code : ℕ)
  deriving DecidableEq, Repr

/-! ### Abstract cryptographic primitives -/

/-- The external primitives the core calls: `aes key block` is the AES
block encryption of one 16-byte block under `key`; `kdf secret salt` is
`pbkdf2.Key(secret, salt, 65536, 32, sha3.New512)`; `xof data i` is byte
`i` of the SHAKE-256 extendable output of `data`. -/
structure Crypto where
  aes : List ℕ → List ℕ → List ℕ
  kdf : List ℕ → List ℕ → List ℕ
  xof : List ℕ → ℕ → ℕ

/-- Facts about the real primitives that the code relies on: AES outputs
one 16-byte block of bytes, PBKDF2 with keyLen 32 outputs 32 bytes, and
the XOF outputs bytes. -/
def GoodCrypto (c : Crypto) : Prop :=
  (∀ k b, (c.aes k b).length = 16) ∧
  (∀ k b, ∀ x ∈ c.aes k b, x < 256) ∧
  (∀ s t, (c.kdf s t).length = 32) ∧
  (∀ d i, c.xof d i < 256)

/-! ### CFB mode (Go `crypto/cipher` CFB, as used by `text.Encrypt`/`text.Decrypt`)

The Go CFB stream produces ciphertext block `cᵢ = pᵢ XOR E(cᵢ₋₁)` with
`c₋₁ = iv`; decryption feeds the ciphertext block back instead. The
recursion is driven by a fuel argument bounded by the input length,
mirroring the byte-consuming loop of `XORKeyStream`. -/

/-- CFB encryption: `E` is the keyed block function, the first argument
the feedback register (previous ciphertext block, initially the IV). -/
def cfbEncryptAux (E : List ℕ → List ℕ) : ℕ → List ℕ → List ℕ → List ℕ
  | 0, _, _ => []
  | fuel + 1, reg, p =>
    if p = [] then []
    else
      let c := List.zipWith Nat.xor (p.take 16) (E reg)
      c ++ cfbEncryptAux E fuel c (p.drop 16)

/-- CFB encryption of a whole buffer, as performed by
`cipher.NewCFBEncrypter(block, iv).XORKeyStream`. -/
def cfbEncrypt (E : List ℕ → List ℕ) (iv p : List ℕ) : List ℕ :=
  cfbEncryptAux E p.length iv p

/-- CFB decryption: the feedback register is fed with the ciphertext. -/
def cfbDecryptAux (E : List ℕ → List ℕ) : ℕ → List ℕ → List ℕ → List ℕ
  | 0, _, _ => []
  | fuel + 1, reg, ct =>
    if ct = [] then []
    else
      let p := List.zipWith Nat.xor (ct.take 16) (E reg)
      p ++ cfbDecryptAux E fuel (ct.take 16) (ct.drop 16)

/-- CFB decryption of a whole buffer, as performed by
`cipher.NewCFBDecrypter(block, iv).XORKeyStream`. -/
def cfbDecrypt (E : List ℕ → List ℕ) (iv ct : List ℕ) : List ℕ :=
  cfbDecryptAux E ct.length iv ct

/-- Valid AES key lengths accepted by `aes.NewCipher`. -/
def validKeySize (key : List ℕ) : Prop :=
  key.length = 16 ∨ key.length = 24 ∨ key.length = 32

instance (key : List ℕ) : Decidable (validKeySize key) := by
  unfold validKeySize; infer_instance

namespace text

/-- Model of `text.Encrypt`: refuse empty plaintext, build the AES cipher, draw a
random IV (here a parameter), prepend it, and CFB-encrypt the plaintext. -/
def Encrypt (aes : List ℕ → List ℕ → List ℕ) (plainText key iv : List ℕ) :
    Except Err (List ℕ) :=
  if plainText.length = 0 then .error .empty
  else if validKeySize key then .ok (iv ++ cfbEncrypt (aes key) iv plainText)
  else .error .keySize

/-- Model of `text.Decrypt`: refuse empty input, refuse input shorter than one
block, split off the IV and CFB-decrypt the remainder. -/
def Decrypt (aes : List ℕ → List ℕ → List ℕ) (cipherText key : List ℕ) :
    Except Err (List ℕ) :=
  if cipherText.length = 0 then .error .empty
  else if cipherText.length < 16 then .error .invalid
  else if validKeySize key then
    .ok (cfbDecrypt (aes key) (cipherText.take 16) (cipherText.drop 16))
  else .error .keySize

end text

/-! ### OFB mode (Go `crypto/cipher` OFB, as used by `stream.Encrypt`/`stream.Decrypt`)

The OFB register starts at the IV and is advanced by the block function
independently of the data; the keystream blocks are the successive
register values, XORed bytewise into the data. -/

/-- One pass of the OFB keystream over a buffer; `reg` is the current
feedback register (initially the IV). -/
def ofbXorAux (E : List ℕ → List ℕ) : ℕ → List ℕ → List ℕ → List ℕ
  | 0, _, _ => []
  | fuel + 1, reg, input =>
    if input = [] then []
    else
      let k := E reg
      List.zipWith Nat.xor (input.take 16) k ++ ofbXorAux E fuel k (input.drop 16)

/-- OFB transform of a whole buffer, as performed by
`cipher.NewOFB(block, iv).XORKeyStream` across `io.Copy` chunks. -/
def ofbXor (E : List ℕ → List ℕ) (iv input : List ℕ) : List ℕ :=
  ofbXorAux E input.length iv input

/-- The all-zero IV used by both stream functions. -/
def zeroIV : List ℕ := List.replicate 16 0

namespace stream

/-- Model of `stream.Encrypt`: build the AES cipher (failing on a bad key size),
then copy `src` through a `cipher.StreamWriter` carrying the OFB stream
with a zero IV; the returned list is everything written to `dst`. -/
def Encrypt (aes : List ℕ → List ℕ → List ℕ) (src key : List ℕ) :
    Except Err (List ℕ) :=
  if validKeySize key then .ok (ofbXor (aes key) zeroIV src)
  else .error .keySize

/-- Model of `stream.Decrypt`: build the AES cipher (failing on a bad key size),
then copy through a `cipher.StreamReader` carrying the OFB stream with a
zero IV; the returned list is everything written to `dst`. -/
def Decrypt (aes : List ℕ → List ℕ → List ℕ) (src key : List ℕ) :
    Except Err (List ℕ) :=
  if validKeySize key then .ok (ofbXor (aes key) zeroIV src)
  else .error .keySize

end stream

/-! ### The envelope type `Msg` -/

/-- Model of `encrypt.Msg`: public (string) fields and private raw byte fields. -/
structure Msg where
  Salt : List Char
  Value : List Char
  KeyHash : List Char
  DataHash : List Char
  s : List ℕ
  v : List ℕ
  kh : List ℕ
  dh : List ℕ
  deriving DecidableEq, Repr

/-- An all-empty envelope, used as the base of record updates. -/
def emptyMsg : Msg := ⟨[], [], [], [], [], [], [], []⟩

/-- Model of `Msg.encode`: hex-encode the raw fields into the public fields;
`Value` only when `withValue`. -/
def Msg.encode (withValue : Bool) (m : Msg) : Msg :=
  let m' := { m with Salt := hexEncode m.s, KeyHash := hexEncode m.kh,
                     DataHash := hexEncode m.dh }
  if withValue then { m' with Value := hexEncode m.v } else m'

/-- Model of `Msg.decode`: hex-decode the public fields into the raw fields,
failing with a field-naming error on malformed hex; `Value` only when
`withValue`. -/
def Msg.decode (withValue : Bool) (m : Msg) : Except Err Msg :=
  match hexDecode m.Salt with
  | none => .error .hexSalt
  | some sb =>
    match hexDecode m.KeyHash with
    | none => .error .hexKeyHash
    | some khb =>
      match hexDecode m.DataHash with
      | none => .error .hexDataHash
      | some dhb =>
        if withValue then
          match hexDecode m.Value with
          | none => .error .hexValue
          | some vb => .ok { m with s := sb, kh := khb, dh := dhb, v := vb }
        else .ok { m with s := sb, kh := khb, dh := dhb }

/-! ### The stream signer -/

/-- Model of `encrypt.StreamSigner`: the SHAKE accumulators are modelled by the
byte lists absorbed so far (`none` when that side was created without a
stream, i.e. the Go field is `nil`). -/
structure StreamSigner where
  rHash : Option (List ℕ)
  wHash : Option (List ℕ)
  rDone : Bool
  wDone : Bool
  deriving DecidableEq, Repr

/-- Model of `encrypt.NewStreamSigner`: an accumulator is allocated for a side
exactly when the corresponding stream is non-nil. -/
def NewStreamSigner (hasR hasW : Bool) : StreamSigner :=
  { rHash := if hasR then some [] else none,
    wHash := if hasW then some [] else none,
    rDone := false, wDone := false }

/-- Model of `StreamSigner.Read`: a successful read of `chunk` feeds exactly those
bytes into the read-side accumulator and marks the side used when the
chunk is non-empty. -/
def StreamSigner.read (sg : StreamSigner) (chunk : List ℕ) : StreamSigner :=
  { sg with rHash := sg.rHash.map (· ++ chunk),
            rDone := sg.rDone || decide (0 < chunk.length) }

/-- Model of `StreamSigner.Write`: a successful write of `chunk` feeds exactly
those bytes into the write-side accumulator and marks the side used when
the chunk is non-empty. -/
def StreamSigner.write (sg : StreamSigner) (chunk : List ℕ) : StreamSigner :=
  { sg with wHash := sg.wHash.map (· ++ chunk),
            wDone := sg.wDone || decide (0 < chunk.length) }

/-- Length of the digests produced by the signer and by `Hash`
(`hashLength` in the source). -/
def hashLength : ℕ := 32

/-- Model of `encrypt.signerHash`: fail with `ErrHash` when the side saw no bytes
or has no accumulator, otherwise read `hashLength` bytes of the XOF of
the absorbed data. -/
def signerHash (xof : List ℕ → ℕ → ℕ) (written : Bool) (h : Option (List ℕ)) :
    Except Err (List ℕ) :=
  match h, written with
  | none, _ => .error .hash
  | some _, false => .error .hash
  | some acc, true => .ok ((List.range hashLength).map (xof acc))

/-- Model of `StreamSigner.ReaderHashSum`. -/
def StreamSigner.ReaderHashSum (sg : StreamSigner) (xof : List ℕ → ℕ → ℕ) :
    Except Err (List ℕ) :=
  signerHash xof sg.rDone sg.rHash

/-- Model of `StreamSigner.WriterHashSum`. -/
def StreamSigner.WriterHashSum (sg : StreamSigner) (xof : List ℕ → ℕ → ℕ) :
    Except Err (List ℕ) :=
  signerHash xof sg.wDone sg.wHash

/-! ### Key derivation and the envelope-level operations -/

/-- Model of `encrypt.Hash`: 32 bytes of `sha3.ShakeSum256` of `data`. -/
def Hash (xof : List ℕ → ℕ → ℕ) (data : List ℕ) : List ℕ :=
  (List.range hashLength).map (xof data)

/-- Model of `encrypt.Key`: PBKDF2 key and the fingerprint `Hash(key ++ salt)`. -/
def Key (c : Crypto) (secret salt : List ℕ) : List ℕ × List ℕ :=
  let key := c.kdf secret salt
  (key, Hash c.xof (key ++ salt))

/-- Model of `encrypt.Text`: derive the key from the secret and a fresh salt
(here a parameter, like the fresh IV), encrypt the plaintext with the
text cipher, and encode the envelope with a hex `Value`. -/
def Text (c : Crypto) (secret plainText salt iv : List ℕ) : Except Err Msg :=
  let kh := Key c secret salt
  match text.Encrypt c.aes plainText kh.1 iv with
  | .error e => .error e
  | .ok cipherText =>
    .ok (Msg.encode true { emptyMsg with v := cipherText, s := salt, kh := kh.2 })

/-- Model of `encrypt.DecryptText`: decode the envelope, re-derive the key from
the stored salt, compare fingerprints (`hmac.Equal` is byte equality),
and decrypt the text cipher. -/
def DecryptText (c : Crypto) (secret : List ℕ) (m : Msg) : Except Err (List ℕ) :=
  match Msg.decode true m with
  | .error e => .error e
  | .ok m' =>
    let kh := Key c secret m'.s
    if kh.2 = m'.kh then text.Decrypt c.aes m'.v kh.1 else .error .secret

/-- Model of `encrypt.File`: derive key and fingerprint from a fresh salt, stream
`src` through a read-side signer into the OFB stream cipher (the created
file receives the ciphertext, returned here alongside the envelope),
finalize the read digest, and encode the envelope without touching
`Value`, which holds the file name. -/
def File (c : Crypto) (secret salt src : List ℕ) (fname : List Char) :
    Except Err (Msg × List ℕ) :=
  let kh := Key c secret salt
  match stream.Encrypt c.aes src kh.1 with
  | .error e => .error e
  | .ok content =>
    let sg := (NewStreamSigner true false).read src
    match sg.ReaderHashSum c.xof with
    | .error e => .error e
    | .ok dh =>
      .ok (Msg.encode false { emptyMsg with s := salt, kh := kh.2, dh := dh,
                                            Value := fname }, content)

/-- Model of `encrypt.DecryptFile`: decode the envelope, open the referenced file
(its `content` is a parameter), re-derive the key, compare fingerprints,
stream the ciphertext through the OFB decryptor into a write-side signer
wrapping `dst`, and compare the finalized write digest with the stored
one. Returns the bytes written to `dst` together with the error, if any,
since bytes reach `dst` before the digest check. -/
def DecryptFile (c : Crypto) (secret : List ℕ) (m : Msg) (content : List ℕ) :
    List ℕ × Option Err :=
  match Msg.decode false m with
  | .error e => ([], some e)
  | .ok m' =>
    let kh := Key c secret m'.s
    if kh.2 = m'.kh then
      match stream.Decrypt c.aes content kh.1 with
      | .error e => ([], some e)
      | .ok written =>
        let sg := (NewStreamSigner false true).write written
        match sg.WriterHashSum c.xof with
        | .error e => (written, some e)
        | .ok dh =>
          if dh = m'.dh then (written, none) else (written, some .hash)
    else ([], some .secret)

/-! ### The quota controller (`config.Storage`) -/

/-- Wrap-around of Go `int64` two-complement arithmetic. -/
def wrap64 (x : ℤ) : ℤ := (x + 2 ^ 63) % 2 ^ 64 - 2 ^ 63

/-- Model of `config.Storage`: only the fields the quota logic touches — `Size`
is the capacity (megabytes before `initLimits`, bytes afterwards) and
`limit` the running total of reserved bytes. Both are Go `int64`. -/
structure Storage where
  Size : ℤ
  limit : ℤ
  deriving DecidableEq, Repr

/-- Model of `Storage.Limit`: under the mutex, compute `limit + v`; reject with
`ErrSizeLimit` when it exceeds `Size` (no mutation), otherwise commit.
Returns the resulting state and the error, if any. -/
def Storage.Limit (st : Storage) (v : ℤ) : Storage × Option Err :=
  let l := wrap64 (st.limit + v)
  if l > st.Size then (st, some .sizeLimit)
  else ({ st with limit := l }, none)

/-- One entry of `os.ReadDir`: a subdirectory, or a regular file whose
`Info()` call yields a size or an I/O error. -/
inductive DirEntry
  | dir
  | file (info : Except ℕ ℤ)

/-- The loop of `initLimits`: skip directories, add each file size to
`limit`, abort on an `Info()` error (leaving the partial state). -/
def initLoop (st : Storage) : List DirEntry → Storage × Option Err
  | [] => (st, none)
  | .dir :: rest => initLoop st rest
  | .file (.error e) :: _ => (st, some (.ioErr e))
  | .file (.ok sz) :: rest => initLoop { st with limit := wrap64 (st.limit + sz) } rest

/-- Model of `Storage.initLimits`: under the mutex, read the storage directory
(the `os.ReadDir` outcome is a parameter), convert `Size` from megabytes
to bytes by a 20-bit left shift, and accumulate the sizes of the regular
entries. -/
def Storage.initLimits (st : Storage) (readDir : Except ℕ (List DirEntry)) :
    Storage × Option Err :=
  match readDir with
  | .error e => (st, some (.ioErr e))
  | .ok entries => initLoop { st with Size := wrap64 (st.Size * 2 ^ 20) } entries

/-- The sizes of the regular-file entries whose `Info()` succeeds,
in directory order. -/
def fileSizes (entries : List DirEntry) : List ℤ :=
  entries.filterMap (fun e => match e with
    | .file (.ok sz) => some sz
    | _ => none)

/-- An entry list is clean when no `Info()` call fails. -/
def entriesOk (entries : List DirEntry) : Prop :=
  ∀ e ∈ entries, ∀ z, e ≠ .file (.error z)

/-! ### The signer as a sequence of stream operations -/

/-- One successful stream operation through a `StreamSigner`: a read or
a write that moved `chunk`. -/
inductive SigOp
  | rd (chunk : List ℕ)
  | wr (chunk : List ℕ)

/-- Apply one operation to the signer. -/
def StreamSigner.apply (sg : StreamSigner) : SigOp → StreamSigner
  | .rd chunk => sg.read chunk
  | .wr chunk => sg.write chunk

/-- All bytes that flowed through the read side, in order. -/
def readBytes (ops : List SigOp) : List ℕ :=
  (ops.filterMap fun op => match op with | .rd chunk => some chunk | .wr _ => none).flatten

/-- All bytes that flowed through the write side, in order. -/
def writeBytes (ops : List SigOp) : List ℕ :=
  (ops.filterMap fun op => match op with | .wr chunk => some chunk | .rd _ => none).flatten

/-- A hex string as produced by the envelope encoder: even length, all
characters from the lowercase hex alphabet. -/
def lowercaseEvenHex (cs : List Char) : Prop :=
  cs.length % 2 = 0 ∧ ∀ ch ∈ cs, ch ∈ hextable

/-- A small concrete envelope for the C8 witness. -/
def msgW : Msg :=
  { Salt := [], Value := [], KeyHash := [], DataHash := [],
    s := [0, 171], v := [255], kh := [1], dh := [2] }

/-! ### A concrete instantiation of the primitives, for witnesses -/

/-- A small executable stand-in for the abstract primitives, satisfying
`GoodCrypto`; used only to instantiate the universally quantified
theorems at concrete inputs. -/
def testCrypto : Crypto where
  aes := fun _ _ => List.replicate 16 0
  kdf := fun s _ => List.replicate 32 (s.headD 0 % 256)
  xof := fun d _ => d.sum % 256

theorem testCrypto_good : GoodCrypto testCrypto := by
  refine ⟨fun k b => ?_, fun k b x hx => ?_, fun s t => ?_, fun d i => ?_⟩
  · simp [testCrypto]
  · simp only [testCrypto, List.mem_replicate] at hx
    omega
  · simp [testCrypto]
  · exact Nat.mod_lt _ (by norm_num)

/-! ### Lemmas: hex codec -/

theorem fromHexChar_hexDigit {n : ℕ} (h : n < 16) :
    fromHexChar (hexDigit n) = some n := by
  interval_cases n <;> decide

theorem hexDigit_mem_hextable {n : ℕ} (h : n < 16) : hexDigit n ∈ hextable := by
  interval_cases n <;> decide

theorem hexDecode_hexEncode {bs : List ℕ} (h : ∀ x ∈ bs, x < 256) :
    hexDecode (hexEncode bs) = some bs := by
  induction bs with
  | nil => rfl
  | cons b t ih =>
    have hb : b < 256 := h b (List.mem_cons_self _ _)
    have ht : ∀ x ∈ t, x < 256 := fun x hx => h x (List.mem_cons_of_mem _ hx)
    have h1 : b / 16 < 16 := by omega
    have h2 : b % 16 < 16 := by omega
    show hexDecode (hexDigit (b / 16) :: hexDigit (b % 16) :: hexEncode t) = some (b :: t)
    rw [hexDecode, fromHexChar_hexDigit h1, fromHexChar_hexDigit h2, ih ht]
    have hb16 : b / 16 * 16 + b % 16 = b := by omega
    simp [hb16]

theorem hexEncode_length (bs : List ℕ) : (hexEncode bs).length = 2 * bs.length := by
  induction bs with
  | nil => rfl
  | cons b t ih =>
    show (hexDigit (b / 16) :: hexDigit (b % 16) :: hexEncode t).length = _
    simp [ih]; omega

theorem hexEncode_mem_hextable {bs : List ℕ} (h : ∀ x ∈ bs, x < 256) :
    ∀ ch ∈ hexEncode bs, ch ∈ hextable := by
  induction bs with
  | nil => intro ch hc; cases hc
  | cons b t ih =>
    have hb : b < 256 := h b (List.mem_cons_self _ _)
    have ht : ∀ x ∈ t, x < 256 := fun x hx => h x (List.mem_cons_of_mem _ hx)
    intro ch hc
    have hc2 : ch ∈ hexDigit (b / 16) :: hexDigit (b % 16) :: hexEncode t := hc
    rw [List.mem_cons, List.mem_cons] at hc2
    rcases hc2 with h1 | h2 | hmem
    · rw [h1]; exact hexDigit_mem_hextable (by omega)
    · rw [h2]; exact hexDigit_mem_hextable (by omega)
    · exact ih ht ch hmem

/-! ### Lemmas: bytewise XOR -/

theorem xor_lt_256 {a b : ℕ} (ha : a < 256) (hb : b < 256) : a ^^^ b < 256 := by
  have : Nat.bitwise bne a b < 2 ^ 8 := Nat.bitwise_lt (by norm_num [ha]) (by norm_num [hb])
  simpa [HXor.hXor, Xor.xor, Nat.xor] using this

theorem xor_xor_cancel (x y : ℕ) : Nat.xor (Nat.xor x y) y = x := by
  have : (x ^^^ y) ^^^ y = x := by rw [Nat.xor_assoc, Nat.xor_self, Nat.xor_zero]
  exact this

theorem zipWith_xor_invol {p ks : List ℕ} (h : p.length ≤ ks.length) :
    List.zipWith Nat.xor (List.zipWith Nat.xor p ks) ks = p := by
  induction p generalizing ks with
  | nil => simp
  | cons a t ih =>
    cases ks with
    | nil => simp at h
    | cons k kt =>
      simp only [List.zipWith_cons_cons]
      rw [ih (by simpa using h), xor_xor_cancel]

/-! ### Lemmas: CFB mode -/

theorem cfbEncryptAux_nil (E : List ℕ → List ℕ) (f : ℕ) (reg : List ℕ) :
    cfbEncryptAux E f reg [] = [] := by
  cases f <;> simp [cfbEncryptAux]

theorem cfbDecryptAux_nil (E : List ℕ → List ℕ) (f : ℕ) (reg : List ℕ) :
    cfbDecryptAux E f reg [] = [] := by
  cases f <;> simp [cfbDecryptAux]

theorem cfbEncryptAux_length (E : List ℕ → List ℕ) (hE : ∀ b, (E b).length = 16)
    (f : ℕ) : ∀ reg p, p.length ≤ f → (cfbEncryptAux E f reg p).length = p.length := by
  induction f with
  | zero =>
    intro reg p hp
    have : p = [] := List.eq_nil_of_length_eq_zero (by omega)
    subst this
    simp [cfbEncryptAux]
  | succ n ih =>
    intro reg p hp
    by_cases hnil : p = []
    · subst hnil; simp [cfbEncryptAux]
    · simp only [cfbEncryptAux, if_neg hnil]
      have hlen : (List.zipWith Nat.xor (p.take 16) (E reg)).length = min p.length 16 := by
        simp [List.length_zipWith, hE, List.length_take]
        omega
      rw [List.length_append, hlen,
          ih _ _ (by simp only [List.length_drop]; omega)]
      simp only [List.length_drop]
      omega

theorem cfb_roundtrip_aux (E : List ℕ → List ℕ) (hE : ∀ b, (E b).length = 16)
    (f1 : ℕ) : ∀ f2 reg p, p.length ≤ f1 → p.length ≤ f2 →
      cfbDecryptAux E f2 reg (cfbEncryptAux E f1 reg p) = p := by
  induction f1 with
  | zero =>
    intro f2 reg p h1 _
    have : p = [] := List.eq_nil_of_length_eq_zero (by omega)
    subst this
    simp [cfbEncryptAux, cfbDecryptAux_nil]
  | succ n ih =>
    intro f2 reg p h1 h2
    by_cases hnil : p = []
    · subst hnil; rw [cfbEncryptAux_nil, cfbDecryptAux_nil]
    · have hplen : 1 ≤ p.length := by
        cases p with
        | nil => exact absurd rfl hnil
        | cons a t => simp
      cases f2 with
      | zero => omega
      | succ m =>
        simp only [cfbEncryptAux, if_neg hnil]
        have hkslen : (E reg).length = 16 := hE reg
        have hclen : (List.zipWith Nat.xor (p.take 16) (E reg)).length = min p.length 16 := by
          simp [List.length_zipWith, List.length_take]
          omega
        set c := List.zipWith Nat.xor (p.take 16) (E reg) with hc
        have hcne : c ≠ [] := by
          intro hceq
          rw [hceq] at hclen
          simp at hclen
          omega
        have happne : c ++ cfbEncryptAux E n c (p.drop 16) ≠ [] := by
          intro happ
          exact hcne (List.append_eq_nil.mp happ).1
        rw [cfbDecryptAux]
        rw [if_neg happne]
        rcases le_or_lt p.length 16 with hle | hgt
        · -- single (possibly partial) block: the recursion ends
          have hdrop : p.drop 16 = [] := List.drop_eq_nil_of_le (by omega)
          rw [hdrop, cfbEncryptAux_nil, List.append_nil]
          have hcle : c.length ≤ 16 := by omega
          rw [List.take_of_length_le hcle]
          have htake : p.take 16 = p := List.take_of_length_le hle
          have hinv : List.zipWith Nat.xor c (E reg) = p := by
            rw [hc, htake]
            exact zipWith_xor_invol (by omega)
          rw [hinv, List.drop_eq_nil_of_le (by omega), cfbDecryptAux_nil,
              List.append_nil]
        · -- a full block followed by the rest
          have hclen16 : c.length = 16 := by omega
          rw [List.take_append_eq_append_take, hclen16]
          simp only [Nat.sub_self, List.take_zero, List.append_nil,
                     List.take_of_length_le (le_of_eq hclen16)]
          rw [List.drop_append_eq_append_drop, hclen16]
          simp only [Nat.sub_self, List.drop_zero,
                     List.drop_of_length_le (le_of_eq hclen16), List.nil_append]
          have hinv : List.zipWith Nat.xor c (E reg) = p.take 16 := by
            rw [hc]
            exact zipWith_xor_invol (by simp [List.length_take]; omega)
          rw [hinv, ih m c (p.drop 16) (by simp [List.length_drop]; omega)
                (by simp [List.length_drop]; omega)]
          exact List.take_append_drop 16 p

/-- The CFB decryption of a CFB encryption under the same block function
and IV recovers the plaintext. -/
theorem cfbDecrypt_cfbEncrypt (E : List ℕ → List ℕ) (hE : ∀ b, (E b).length = 16)
    (iv p : List ℕ) : cfbDecrypt E iv (cfbEncrypt E iv p) = p := by
  rw [cfbDecrypt, cfbEncrypt, cfbEncryptAux_length E hE _ _ _ le_rfl]
  exact cfb_roundtrip_aux E hE _ _ _ _ le_rfl le_rfl

theorem zipWith_xor_lt {as bs : List ℕ} (ha : ∀ x ∈ as, x < 256)
    (hb : ∀ x ∈ bs, x < 256) : ∀ x ∈ List.zipWith Nat.xor as bs, x < 256 := by
  induction as generalizing bs with
  | nil => intro x hx; simp at hx
  | cons a t ih =>
    cases bs with
    | nil => intro x hx; simp at hx
    | cons b bt =>
      intro x hx
      rw [List.zipWith_cons_cons, List.mem_cons] at hx
      rcases hx with hx | hx
      · rw [hx]
        exact xor_lt_256 (ha a (List.mem_cons_self _ _)) (hb b (List.mem_cons_self _ _))
      · exact ih (fun y hy => ha y (List.mem_cons_of_mem _ hy))
          (fun y hy => hb y (List.mem_cons_of_mem _ hy)) x hx

theorem cfbEncryptAux_lt (E : List ℕ → List ℕ) (hE : ∀ r, ∀ x ∈ E r, x < 256)
    (f : ℕ) : ∀ reg p, (∀ x ∈ p, x < 256) →
      ∀ x ∈ cfbEncryptAux E f reg p, x < 256 := by
  induction f with
  | zero => intro reg p _ x hx; simp [cfbEncryptAux] at hx
  | succ n ih =>
    intro reg p hp x hx
    by_cases hnil : p = []
    · subst hnil; simp [cfbEncryptAux] at hx
    · simp only [cfbEncryptAux, if_neg hnil, List.mem_append] at hx
      rcases hx with hx | hx
      · exact zipWith_xor_lt (fun y hy => hp y (List.take_subset _ _ hy)) (hE reg) x hx
      · exact ih _ _ (fun y hy => hp y (List.drop_subset _ _ hy)) x hx

/-! ### Lemmas: OFB mode -/

theorem ofbXorAux_nil (E : List ℕ → List ℕ) (f : ℕ) (reg : List ℕ) :
    ofbXorAux E f reg [] = [] := by
  cases f <;> simp [ofbXorAux]

theorem ofbXorAux_length (E : List ℕ → List ℕ) (hE : ∀ b, (E b).length = 16)
    (f : ℕ) : ∀ reg x, x.length ≤ f → (ofbXorAux E f reg x).length = x.length := by
  induction f with
  | zero =>
    intro reg x hx
    have : x = [] := List.eq_nil_of_length_eq_zero (by omega)
    subst this
    simp [ofbXorAux]
  | succ n ih =>
    intro reg x hx
    by_cases hnil : x = []
    · subst hnil; simp [ofbXorAux]
    · simp only [ofbXorAux, if_neg hnil]
      rw [List.length_append, ih _ _ (by simp only [List.length_drop]; omega)]
      simp [List.length_zipWith, List.length_take, hE]
      omega

theorem ofb_roundtrip_aux (E : List ℕ → List ℕ) (hE : ∀ b, (E b).length = 16)
    (f1 : ℕ) : ∀ f2 reg x, x.length ≤ f1 → x.length ≤ f2 →
      ofbXorAux E f2 reg (ofbXorAux E f1 reg x) = x := by
  induction f1 with
  | zero =>
    intro f2 reg x h1 _
    have : x = [] := List.eq_nil_of_length_eq_zero (by omega)
    subst this
    rw [ofbXorAux_nil, ofbXorAux_nil]
  | succ n ih =>
    intro f2 reg x h1 h2
    by_cases hnil : x = []
    · subst hnil; rw [ofbXorAux_nil, ofbXorAux_nil]
    · have hxlen : 1 ≤ x.length := by
        cases x with
        | nil => exact absurd rfl hnil
        | cons a t => simp
      cases f2 with
      | zero => omega
      | succ m =>
        simp only [ofbXorAux, if_neg hnil]
        have hklen : (E reg).length = 16 := hE reg
        have hhdlen : (List.zipWith Nat.xor (x.take 16) (E reg)).length = min x.length 16 := by
          simp [List.length_zipWith, List.length_take]
          omega
        set hd := List.zipWith Nat.xor (x.take 16) (E reg) with hhd
        have hhdne : hd ≠ [] := by
          intro heq
          rw [heq] at hhdlen
          simp at hhdlen
          omega
        have happne : hd ++ ofbXorAux E n (E reg) (x.drop 16) ≠ [] := by
          intro happ
          exact hhdne (List.append_eq_nil.mp happ).1
        rw [if_neg happne]
        rcases le_or_lt x.length 16 with hle | hgt
        · have hdrop : x.drop 16 = [] := List.drop_eq_nil_of_le (by omega)
          rw [hdrop, ofbXorAux_nil, List.append_nil]
          have hhdle : hd.length ≤ 16 := by omega
          rw [List.take_of_length_le hhdle]
          have hinv : List.zipWith Nat.xor hd (E reg) = x := by
            rw [hhd, List.take_of_length_le hle]
            exact zipWith_xor_invol (by omega)
          rw [hinv, List.drop_eq_nil_of_le (by omega), ofbXorAux_nil, List.append_nil]
        · have hhdlen16 : hd.length = 16 := by omega
          rw [List.take_append_eq_append_take, hhdlen16]
          simp only [Nat.sub_self, List.take_zero, List.append_nil,
                     List.take_of_length_le (le_of_eq hhdlen16)]
          rw [List.drop_append_eq_append_drop, hhdlen16]
          simp only [Nat.sub_self, List.drop_zero,
                     List.drop_of_length_le (le_of_eq hhdlen16), List.nil_append]
          have hinv : List.zipWith Nat.xor hd (E reg) = x.take 16 := by
            rw [hhd]
            exact zipWith_xor_invol (by simp [List.length_take]; omega)
          rw [hinv, ih m (E reg) (x.drop 16) (by simp [List.length_drop]; omega)
                (by simp [List.length_drop]; omega)]
          exact List.take_append_drop 16 x

/-- The OFB transform is an involution: applying it twice with the same
block function and IV recovers the input. -/
theorem ofbXor_ofbXor (E : List ℕ → List ℕ) (hE : ∀ b, (E b).length = 16)
    (iv x : List ℕ) : ofbXor E iv (ofbXor E iv x) = x := by
  rw [ofbXor, ofbXor, ofbXorAux_length E hE _ _ _ le_rfl]
  exact ofb_roundtrip_aux E hE _ _ _ _ le_rfl le_rfl

/-- The OFB transform preserves length. -/
theorem ofbXor_length (E : List ℕ → List ℕ) (hE : ∀ b, (E b).length = 16)
    (iv x : List ℕ) : (ofbXor E iv x).length = x.length :=
  ofbXorAux_length E hE _ _ _ le_rfl

/-- The CFB encryption preserves length. -/
theorem cfbEncrypt_length (E : List ℕ → List ℕ) (hE : ∀ b, (E b).length = 16)
    (iv p : List ℕ) : (cfbEncrypt E iv p).length = p.length :=
  cfbEncryptAux_length E hE _ _ _ le_rfl

/-! ### Lemmas: envelope encode/decode -/

theorem Msg.decode_encode (m : Msg) (b : Bool)
    (hs : ∀ x ∈ m.s, x < 256) (hkh : ∀ x ∈ m.kh, x < 256)
    (hdh : ∀ x ∈ m.dh, x < 256) (hv : ∀ x ∈ m.v, x < 256) :
    Msg.decode b (Msg.encode b m) = .ok (Msg.encode b m) := by
  cases b with
  | false =>
    simp only [Msg.encode, Bool.false_eq_true, if_false, Msg.decode,
               hexDecode_hexEncode hs, hexDecode_hexEncode hkh,
               hexDecode_hexEncode hdh]
  | true =>
    simp only [Msg.encode, if_true, Msg.decode,
               hexDecode_hexEncode hs, hexDecode_hexEncode hkh,
               hexDecode_hexEncode hdh, hexDecode_hexEncode hv]

theorem foldl_apply_spec (ops : List SigOp) : ∀ sg : StreamSigner,
    (ops.foldl StreamSigner.apply sg).rHash = sg.rHash.map (· ++ readBytes ops) ∧
    (ops.foldl StreamSigner.apply sg).wHash = sg.wHash.map (· ++ writeBytes ops) ∧
    ((ops.foldl StreamSigner.apply sg).rDone ↔ (sg.rDone ∨ readBytes ops ≠ [])) ∧
    ((ops.foldl StreamSigner.apply sg).wDone ↔ (sg.wDone ∨ writeBytes ops ≠ [])) := by
  induction ops with
  | nil =>
    intro sg
    refine ⟨?_, ?_, ?_, ?_⟩ <;>
      simp [readBytes, writeBytes, Option.map_id]
  | cons op rest ih =>
    intro sg
    cases op with
    | rd chunk =>
      obtain ⟨h1, h2, h3, h4⟩ := ih (sg.read chunk)
      have hr : readBytes (SigOp.rd chunk :: rest) = chunk ++ readBytes rest := by
        simp [readBytes]
      have hw : writeBytes (SigOp.rd chunk :: rest) = writeBytes rest := by
        simp [writeBytes]
      refine ⟨?_, ?_, ?_, ?_⟩
      · rw [List.foldl_cons]
        show (rest.foldl StreamSigner.apply (sg.read chunk)).rHash = _
        rw [h1, hr, StreamSigner.read]
        cases sg.rHash <;> simp
      · rw [List.foldl_cons]
        show (rest.foldl StreamSigner.apply (sg.read chunk)).wHash = _
        rw [h2, hw, StreamSigner.read]
      · rw [List.foldl_cons]
        show (rest.foldl StreamSigner.apply (sg.read chunk)).rDone ↔ _
        rw [h3, hr, StreamSigner.read]
        simp only [Bool.or_eq_true, decide_eq_true_eq]
        constructor
        · rintro ((h | h) | h)
          · exact Or.inl h
          · refine Or.inr ?_
            intro hemp
            rw [List.append_eq_nil] at hemp
            have : chunk.length = 0 := by rw [hemp.1]; rfl
            omega
          · refine Or.inr ?_
            intro hemp
            rw [List.append_eq_nil] at hemp
            exact h hemp.2
        · rintro (h | h)
          · exact Or.inl (Or.inl h)
          · by_cases hc : chunk = []
            · refine Or.inr ?_
              intro hrb
              exact h (by rw [hc, hrb]; rfl)
            · refine Or.inl (Or.inr ?_)
              cases chunk with
              | nil => exact absurd rfl hc
              | cons a t => simp
      · rw [List.foldl_cons]
        show (rest.foldl StreamSigner.apply (sg.read chunk)).wDone ↔ _
        rw [h4, hw, StreamSigner.read]
    | wr chunk =>
      obtain ⟨h1, h2, h3, h4⟩ := ih (sg.write chunk)
      have hr : readBytes (SigOp.wr chunk :: rest) = readBytes rest := by
        simp [readBytes]
      have hw : writeBytes (SigOp.wr chunk :: rest) = chunk ++ writeBytes rest := by
        simp [writeBytes]
      refine ⟨?_, ?_, ?_, ?_⟩
      · rw [List.foldl_cons]
        show (rest.foldl StreamSigner.apply (sg.write chunk)).rHash = _
        rw [h1, hr, StreamSigner.write]
      · rw [List.foldl_cons]
        show (rest.foldl StreamSigner.apply (sg.write chunk)).wHash = _
        rw [h2, hw, StreamSigner.write]
        cases sg.wHash <;> simp
      · rw [List.foldl_cons]
        show (rest.foldl StreamSigner.apply (sg.write chunk)).rDone ↔ _
        rw [h3, hr, StreamSigner.write]
      · rw [List.foldl_cons]
        show (rest.foldl StreamSigner.apply (sg.write chunk)).wDone ↔ _
        rw [h4, hw, StreamSigner.write]
        simp only [Bool.or_eq_true, decide_eq_true_eq]
        constructor
        · rintro ((h | h) | h)
          · exact Or.inl h
          · refine Or.inr ?_
            intro hemp
            rw [List.append_eq_nil] at hemp
            have : chunk.length = 0 := by rw [hemp.1]; rfl
            omega
          · refine Or.inr ?_
            intro hemp
            rw [List.append_eq_nil] at hemp
            exact h hemp.2
        · rintro (h | h)
          · exact Or.inl (Or.inl h)
          · by_cases hc : chunk = []
            · refine Or.inr ?_
              intro hwb
              exact h (by rw [hc, hwb]; rfl)
            · refine Or.inl (Or.inr ?_)
              cases chunk with
              | nil => exact absurd rfl hc
              | cons a t => simp

/-! ### Lemmas: quota controller -/

theorem wrap64_eq {x : ℤ} (h1 : -(2 ^ 63) ≤ x) (h2 : x < 2 ^ 63) : wrap64 x = x := by
  unfold wrap64
  have hmod : (x + 2 ^ 63) % 2 ^ 64 = x + 2 ^ 63 :=
    Int.emod_eq_of_lt (by omega) (by omega)
  omega

theorem initLoop_spec (entries : List DirEntry) (hok : entriesOk entries)
    (hnn : ∀ z ∈ fileSizes entries, 0 ≤ z) :
    ∀ st : Storage, 0 ≤ st.limit → st.limit + (fileSizes entries).sum < 2 ^ 63 →
      initLoop st entries = ({ st with limit := st.limit + (fileSizes entries).sum }, none) := by
  induction entries with
  | nil =>
    intro st _ _
    simp [initLoop, fileSizes]
  | cons e rest ih =>
    intro st hl hsum
    cases e with
    | dir =>
      have hok' : entriesOk rest := fun x hx => hok x (List.mem_cons_of_mem _ hx)
      have hfs : fileSizes (DirEntry.dir :: rest) = fileSizes rest := by
        simp [fileSizes]
      rw [hfs] at hsum ⊢
      rw [initLoop]
      exact ih hok' (fun z hz => hnn z (by rw [hfs]; exact hz)) st hl hsum
    | file info =>
      cases info with
      | error z =>
        exact absurd rfl (hok _ (List.mem_cons_self _ _) z)
      | ok sz =>
        have hok' : entriesOk rest := fun x hx => hok x (List.mem_cons_of_mem _ hx)
        have hfs : fileSizes (DirEntry.file (.ok sz) :: rest) = sz :: fileSizes rest := by
          simp [fileSizes]
        have hsz : 0 ≤ sz := hnn sz (by rw [hfs]; exact List.mem_cons_self _ _)
        have hnn' : ∀ z ∈ fileSizes rest, 0 ≤ z := fun z hz =>
          hnn z (by rw [hfs]; exact List.mem_cons_of_mem _ hz)
        have hrestnn : 0 ≤ (fileSizes rest).sum := List.sum_nonneg hnn'
        rw [hfs, List.sum_cons] at hsum
        have hw : wrap64 (st.limit + sz) = st.limit + sz :=
          wrap64_eq (by omega) (by omega)
        rw [initLoop, hw]
        rw [ih hok' hnn' { st with limit := st.limit + sz } (by simp; omega)
              (by simp; omega)]
        rw [hfs, List.sum_cons]
        have : st.limit + sz + (fileSizes rest).sum = st.limit + (sz + (fileSizes rest).sum) := by
          ring
        simp [this]

/-! ### Claim theorems: quota controller -/

/-- C4: `Reserve(n)` (`Storage.Limit`) fails with `QuotaExceeded` and
leaves `reservedBytes` unchanged exactly when `reservedBytes + n`
exceeds `capacityBytes`; otherwise it succeeds and sets `reservedBytes`
to `reservedBytes + n`, which is then at most `capacityBytes`.
(Stated for sums within the `int64` range, where the wrapped Go
addition agrees with integer addition.) -/
theorem Limit_quota (st : Storage) (v : ℤ)
    (h1 : -(2 ^ 63) ≤ st.limit + v) (h2 : st.limit + v < 2 ^ 63) :
    (st.limit + v > st.Size → st.Limit v = (st, some .sizeLimit)) ∧
    (st.limit + v ≤ st.Size → st.Limit v = ({ st with limit := st.limit + v }, none)) ∧
    ((st.Limit v).2 = none → (st.Limit v).1.limit ≤ st.Size) := by
  have hw : wrap64 (st.limit + v) = st.limit + v := wrap64_eq h1 h2
  unfold Storage.Limit
  rw [hw]
  by_cases hgt : st.limit + v > st.Size
  · rw [if_pos hgt]
    exact ⟨fun _ => rfl, fun hle => absurd hgt (by omega), fun h => by simp at h⟩
  · rw [if_neg hgt]
    exact ⟨fun h => absurd h hgt, fun _ => rfl, fun _ => by simp; omega⟩

theorem Limit_quota_witness :
    Storage.Limit ⟨100, 50⟩ 30 = ({ Size := 100, limit := 80 }, none) :=
  (Limit_quota ⟨100, 50⟩ 30 (by norm_num) (by norm_num)).2.1 (by norm_num)

/-- C10: `Reserve` accepts negative sizes: within the `int64` range the
call succeeds exactly when `reservedBytes + n` does not exceed
`capacityBytes`, with no lower bound, so a successful negative
reservation can leave `reservedBytes` negative. -/
theorem Limit_negative (st : Storage) (v : ℤ) (_hneg : v < 0)
    (h1 : -(2 ^ 63) ≤ st.limit + v) (h2 : st.limit + v < 2 ^ 63) :
    ((st.Limit v).2 = none ↔ st.limit + v ≤ st.Size) ∧
    (st.limit + v ≤ st.Size → st.Limit v = ({ st with limit := st.limit + v }, none)) := by
  have hw : wrap64 (st.limit + v) = st.limit + v := wrap64_eq h1 h2
  unfold Storage.Limit
  rw [hw]
  by_cases hgt : st.limit + v > st.Size
  · rw [if_pos hgt]
    exact ⟨by simp; omega, fun hle => absurd hgt (by omega)⟩
  · rw [if_neg hgt]
    exact ⟨by simp; omega, fun _ => rfl⟩

theorem Limit_negative_witness :
    Storage.Limit ⟨100, 0⟩ (-5) = ({ Size := 100, limit := -5 }, none) ∧ (-5 : ℤ) < 0 :=
  ⟨(Limit_negative ⟨100, 0⟩ (-5) (by norm_num) (by norm_num) (by norm_num)).2 (by norm_num),
   by norm_num⟩

/-- C7: `initLimits` on a fresh controller sets `reservedBytes` to the
sum of the sizes of the regular files in the storage directory
(subdirectories are skipped), sets the capacity to `Size` megabytes
shifted into bytes, and fails when the directory cannot be read. -/
theorem initLimits_spec (st : Storage) (entries : List DirEntry) (e : ℕ)
    (hfresh : st.limit = 0) (hok : entriesOk entries)
    (hnn : ∀ z ∈ fileSizes entries, 0 ≤ z)
    (hsum : (fileSizes entries).sum < 2 ^ 63)
    (hcap1 : 0 ≤ st.Size) (hcap2 : st.Size * 2 ^ 20 < 2 ^ 63) :
    st.initLimits (.ok entries) =
      ({ Size := st.Size * 2 ^ 20, limit := (fileSizes entries).sum }, none) ∧
    st.initLimits (.error e) = (st, some (.ioErr e)) := by
  constructor
  · have hnn20 : (0 : ℤ) ≤ st.Size * 2 ^ 20 :=
      mul_nonneg hcap1 (by norm_num)
    have hw : wrap64 (st.Size * 2 ^ 20) = st.Size * 2 ^ 20 :=
      wrap64_eq (by omega) hcap2
    have step : st.initLimits (.ok entries) =
        initLoop { st with Size := wrap64 (st.Size * 2 ^ 20) } entries := rfl
    rw [step, hw]
    rw [initLoop_spec entries hok hnn { st with Size := st.Size * 2 ^ 20 }
          (by simp [hfresh]) (by simp [hfresh]; omega)]
    simp [hfresh]
  · rfl

theorem initLimits_spec_witness :
    Storage.initLimits ⟨7, 0⟩
        (.ok [.file (.ok 100), .file (.ok 250), .dir, .file (.ok 5)]) =
      ({ Size := 7 * 2 ^ 20, limit := 355 }, none) ∧
    Storage.initLimits ⟨7, 0⟩ (.error 3) = (⟨7, 0⟩, some (.ioErr 3)) := by
  have h := initLimits_spec ⟨7, 0⟩
      [.file (.ok 100), .file (.ok 250), .dir, .file (.ok 5)] 3
      rfl
      (by
        intro x hx z
        simp only [List.mem_cons, List.not_mem_nil, or_false] at hx
        rcases hx with rfl | rfl | rfl | rfl <;> simp)
      (by decide)
      (by decide)
      (by norm_num)
      (by norm_num)
  have hsum : (fileSizes [DirEntry.file (.ok 100), .file (.ok 250), .dir,
      .file (.ok 5)]).sum = 355 := by decide
  rw [hsum] at h
  exact h

/-! ### Claim theorems: signer, text-cipher errors, stream equivalence, envelope -/

/-- C5: for a `StreamSigner`, every successful read (resp. write) of `n`
bytes feeds exactly those bytes into the hash accumulator of that side,
so finalizing a side returns the 32-byte digest of precisely the
concatenation of all bytes that flowed through that side, and finalizing
a side through which no bytes have flowed fails with `NoDataSigned`
(`ErrHash`). -/
theorem StreamSigner_digest (xof : List ℕ → ℕ → ℕ) (ops : List SigOp) :
    ((ops.foldl StreamSigner.apply (NewStreamSigner true true)).ReaderHashSum xof =
      if readBytes ops = [] then .error .hash else .ok (Hash xof (readBytes ops))) ∧
    ((ops.foldl StreamSigner.apply (NewStreamSigner true true)).WriterHashSum xof =
      if writeBytes ops = [] then .error .hash else .ok (Hash xof (writeBytes ops))) ∧
    (Hash xof (readBytes ops)).length = 32 ∧
    (Hash xof (writeBytes ops)).length = 32 := by
  obtain ⟨h1, h2, h3, h4⟩ := foldl_apply_spec ops (NewStreamSigner true true)
  have h1' : (ops.foldl StreamSigner.apply (NewStreamSigner true true)).rHash =
      some (readBytes ops) := by rw [h1]; rfl
  have h2' : (ops.foldl StreamSigner.apply (NewStreamSigner true true)).wHash =
      some (writeBytes ops) := by rw [h2]; rfl
  refine ⟨?_, ?_, by simp [Hash, hashLength], by simp [Hash, hashLength]⟩
  · rw [StreamSigner.ReaderHashSum, h1']
    by_cases hr : readBytes ops = []
    · rw [if_pos hr]
      have hd : (ops.foldl StreamSigner.apply (NewStreamSigner true true)).rDone = false := by
        cases hcase : (ops.foldl StreamSigner.apply (NewStreamSigner true true)).rDone
        · rfl
        · rcases h3.mp hcase with hfalse | hne
          · simp [NewStreamSigner] at hfalse
          · exact absurd hr hne
      rw [hd]
      rfl
    · rw [if_neg hr]
      have hd : (ops.foldl StreamSigner.apply (NewStreamSigner true true)).rDone = true :=
        h3.mpr (Or.inr hr)
      rw [hd]
      rfl
  · rw [StreamSigner.WriterHashSum, h2']
    by_cases hw : writeBytes ops = []
    · rw [if_pos hw]
      have hd : (ops.foldl StreamSigner.apply (NewStreamSigner true true)).wDone = false := by
        cases hcase : (ops.foldl StreamSigner.apply (NewStreamSigner true true)).wDone
        · rfl
        · rcases h4.mp hcase with hfalse | hne
          · simp [NewStreamSigner] at hfalse
          · exact absurd hw hne
      rw [hd]
      rfl
    · rw [if_neg hw]
      have hd : (ops.foldl StreamSigner.apply (NewStreamSigner true true)).wDone = true :=
        h4.mpr (Or.inr hw)
      rw [hd]
      rfl

/-- C6: the text cipher fails with `EmptyInput` on a zero-length
plaintext or ciphertext, `Decrypt` fails with `InvalidInput` on a
non-empty ciphertext shorter than one block, and for the other inputs
with a valid 32-byte key both operations succeed. -/
theorem text_cipher_errors (aes : List ℕ → List ℕ → List ℕ)
    (key iv pt ct1 ct2 : List ℕ) (hkey : key.length = 32)
    (hpt : pt ≠ []) (hct1 : ct1 ≠ []) (hct1len : ct1.length < 16)
    (hct2 : 16 ≤ ct2.length) :
    text.Encrypt aes [] key iv = .error .empty ∧
    text.Decrypt aes [] key = .error .empty ∧
    text.Encrypt aes pt key iv = .ok (iv ++ cfbEncrypt (aes key) iv pt) ∧
    text.Decrypt aes ct1 key = .error .invalid ∧
    text.Decrypt aes ct2 key = .ok (cfbDecrypt (aes key) (ct2.take 16) (ct2.drop 16)) := by
  have hvk : validKeySize key := Or.inr (Or.inr hkey)
  have hptlen : pt.length ≠ 0 := fun h => hpt (List.eq_nil_of_length_eq_zero h)
  have hct1len0 : ct1.length ≠ 0 := fun h => hct1 (List.eq_nil_of_length_eq_zero h)
  refine ⟨rfl, rfl, ?_, ?_, ?_⟩
  · rw [text.Encrypt, if_neg hptlen, if_pos hvk]
  · rw [text.Decrypt, if_neg hct1len0, if_pos hct1len]
  · rw [text.Decrypt, if_neg (by omega : ¬ct2.length = 0),
        if_neg (by omega : ¬ct2.length < 16), if_pos hvk]

theorem text_cipher_errors_witness :
    text.Encrypt testCrypto.aes [] (List.replicate 32 0) [] = .error .empty ∧
    text.Decrypt testCrypto.aes [] (List.replicate 32 0) = .error .empty ∧
    text.Encrypt testCrypto.aes [7] (List.replicate 32 0) [] =
      .ok ([] ++ cfbEncrypt (testCrypto.aes (List.replicate 32 0)) [] [7]) ∧
    text.Decrypt testCrypto.aes [2] (List.replicate 32 0) = .error .invalid ∧
    text.Decrypt testCrypto.aes (List.replicate 16 3) (List.replicate 32 0) =
      .ok (cfbDecrypt (testCrypto.aes (List.replicate 32 0))
        ((List.replicate 16 3).take 16) ((List.replicate 16 3).drop 16)) :=
  text_cipher_errors testCrypto.aes (List.replicate 32 0) [] [7] [2]
    (List.replicate 16 3) (by simp) (by simp) (by simp) (by simp) (by simp)

/-- C9: `stream.Encrypt` and `stream.Decrypt` compute the same byte
transformation (both XOR with the zero-IV OFB keystream), and therefore
each is the inverse of the other. -/
theorem stream_Encrypt_Decrypt_equiv (aes : List ℕ → List ℕ → List ℕ)
    (src key : List ℕ) (hkey : key.length = 32)
    (hE : ∀ k b, (aes k b).length = 16) :
    stream.Decrypt aes src key = stream.Encrypt aes src key ∧
    Except.bind (stream.Encrypt aes src key)
      (fun ctext => stream.Decrypt aes ctext key) = .ok src := by
  have hvk : validKeySize key := Or.inr (Or.inr hkey)
  refine ⟨rfl, ?_⟩
  simp only [stream.Encrypt, stream.Decrypt, if_pos hvk, Except.bind]
  rw [ofbXor_ofbXor (aes key) (fun b => hE key b) zeroIV src]

theorem stream_Encrypt_Decrypt_equiv_witness :
    stream.Decrypt testCrypto.aes [5, 6, 7] (List.replicate 32 0) =
      stream.Encrypt testCrypto.aes [5, 6, 7] (List.replicate 32 0) ∧
    Except.bind (stream.Encrypt testCrypto.aes [5, 6, 7] (List.replicate 32 0))
      (fun ctext => stream.Decrypt testCrypto.aes ctext (List.replicate 32 0)) =
      .ok [5, 6, 7] :=
  stream_Encrypt_Decrypt_equiv testCrypto.aes [5, 6, 7] (List.replicate 32 0)
    (by simp) (fun k b => by simp [testCrypto])

/-- C8: encoding the raw byte fields of an envelope and decoding them back
reproduces the identical raw salt, key-fingerprint and data-digest
bytes, and every encoded hex string is lowercase hex of even length. -/
theorem Msg_encode_decode (m : Msg) (b : Bool)
    (hs : ∀ x ∈ m.s, x < 256) (hkh : ∀ x ∈ m.kh, x < 256)
    (hdh : ∀ x ∈ m.dh, x < 256) (hv : ∀ x ∈ m.v, x < 256) :
    Msg.decode b (Msg.encode b m) = .ok (Msg.encode b m) ∧
    (Msg.encode b m).s = m.s ∧ (Msg.encode b m).kh = m.kh ∧
    (Msg.encode b m).dh = m.dh ∧ (Msg.encode b m).v = m.v ∧
    lowercaseEvenHex (Msg.encode b m).Salt ∧
    lowercaseEvenHex (Msg.encode b m).KeyHash ∧
    lowercaseEvenHex (Msg.encode b m).DataHash ∧
    (b = true → lowercaseEvenHex (Msg.encode b m).Value) := by
  have hSalt : (Msg.encode b m).Salt = hexEncode m.s := by
    cases b <;> rfl
  have hKeyHash : (Msg.encode b m).KeyHash = hexEncode m.kh := by
    cases b <;> rfl
  have hDataHash : (Msg.encode b m).DataHash = hexEncode m.dh := by
    cases b <;> rfl
  refine ⟨Msg.decode_encode m b hs hkh hdh hv, by cases b <;> rfl,
      by cases b <;> rfl, by cases b <;> rfl, by cases b <;> rfl, ?_, ?_, ?_, ?_⟩
  · rw [hSalt]
    exact ⟨by rw [hexEncode_length]; omega, hexEncode_mem_hextable hs⟩
  · rw [hKeyHash]
    exact ⟨by rw [hexEncode_length]; omega, hexEncode_mem_hextable hkh⟩
  · rw [hDataHash]
    exact ⟨by rw [hexEncode_length]; omega, hexEncode_mem_hextable hdh⟩
  · intro hb
    subst hb
    have hValue : (Msg.encode true m).Value = hexEncode m.v := rfl
    rw [hValue]
    exact ⟨by rw [hexEncode_length]; omega, hexEncode_mem_hextable hv⟩

theorem Msg_encode_decode_witness :
    Msg.decode true (Msg.encode true msgW) = .ok (Msg.encode true msgW) ∧
    (Msg.encode true msgW).s = msgW.s ∧ (Msg.encode true msgW).kh = msgW.kh ∧
    (Msg.encode true msgW).dh = msgW.dh ∧ (Msg.encode true msgW).v = msgW.v ∧
    lowercaseEvenHex (Msg.encode true msgW).Salt ∧
    lowercaseEvenHex (Msg.encode true msgW).KeyHash ∧
    lowercaseEvenHex (Msg.encode true msgW).DataHash ∧
    (true = true → lowercaseEvenHex (Msg.encode true msgW).Value) :=
  Msg_encode_decode msgW true (by decide) (by decide) (by decide) (by decide)

/-! ### Claim theorems: text pipeline roundtrip -/

theorem take_app_16 {l1 l2 : List ℕ} (h : l1.length = 16) : (l1 ++ l2).take 16 = l1 := by
  rw [List.take_append_eq_append_take, h]
  simp [List.take_of_length_le, h]

theorem drop_app_16 {l1 l2 : List ℕ} (h : l1.length = 16) : (l1 ++ l2).drop 16 = l2 := by
  rw [List.drop_append_eq_append_drop, h]
  simp [List.drop_of_length_le, h]

theorem Hash_lt (xof : List ℕ → ℕ → ℕ) (hx : ∀ d i, xof d i < 256) (data : List ℕ) :
    ∀ x ∈ Hash xof data, x < 256 := by
  intro x hxm
  obtain ⟨i, _, rfl⟩ := List.mem_map.mp hxm
  exact hx data i

/-- C1: encrypting a non-empty plaintext with `Text` and decrypting the
resulting envelope with `DecryptText` under the same secret returns
exactly the plaintext. -/
theorem Text_DecryptText_roundtrip (c : Crypto) (hc : GoodCrypto c)
    (secret p salt iv : List ℕ) (hp : p ≠ []) (hpb : ∀ x ∈ p, x < 256)
    (hsalt : ∀ x ∈ salt, x < 256) (hiv : iv.length = 16)
    (hivb : ∀ x ∈ iv, x < 256) :
    Except.bind (Text c secret p salt iv) (fun m => DecryptText c secret m) = .ok p := by
  obtain ⟨haesLen, haesB, hkdfLen, hxofB⟩ := hc
  have hple : ¬p.length = 0 := fun h => hp (List.eq_nil_of_length_eq_zero h)
  have hkeylen : ((Key c secret salt).1).length = 32 := hkdfLen secret salt
  have hvk : validKeySize (Key c secret salt).1 := Or.inr (Or.inr hkeylen)
  have hE16 : ∀ b, (c.aes (Key c secret salt).1 b).length = 16 := fun b => haesLen _ b
  have hEB : ∀ r, ∀ x ∈ c.aes (Key c secret salt).1 r, x < 256 := fun r => haesB _ r
  have henc : text.Encrypt c.aes p (Key c secret salt).1 iv =
      .ok (iv ++ cfbEncrypt (c.aes (Key c secret salt).1) iv p) := by
    rw [text.Encrypt, if_neg hple, if_pos hvk]
  have htext : Text c secret p salt iv =
      .ok (Msg.encode true
        { emptyMsg with v := iv ++ cfbEncrypt (c.aes (Key c secret salt).1) iv p,
                        s := salt, kh := (Key c secret salt).2 }) := by
    simp only [Text, henc]
  rw [htext]
  show DecryptText c secret (Msg.encode true
      { emptyMsg with v := iv ++ cfbEncrypt (c.aes (Key c secret salt).1) iv p,
                      s := salt, kh := (Key c secret salt).2 }) = .ok p
  have hkh0 : ∀ x ∈ (Key c secret salt).2, x < 256 :=
    Hash_lt c.xof hxofB ((Key c secret salt).1 ++ salt)
  have hv0 : ∀ x ∈ iv ++ cfbEncrypt (c.aes (Key c secret salt).1) iv p, x < 256 := by
    intro x hx
    rw [List.mem_append] at hx
    rcases hx with hx | hx
    · exact hivb x hx
    · exact cfbEncryptAux_lt _ hEB _ _ _ hpb x hx
  have hdec := Msg.decode_encode
      { emptyMsg with v := iv ++ cfbEncrypt (c.aes (Key c secret salt).1) iv p,
                      s := salt, kh := (Key c secret salt).2 } true
      hsalt hkh0 (fun x hx => absurd hx (List.not_mem_nil x)) hv0
  simp only [DecryptText, hdec]
  show (if (Key c secret salt).2 = (Key c secret salt).2 then
      text.Decrypt c.aes (iv ++ cfbEncrypt (c.aes (Key c secret salt).1) iv p)
        (Key c secret salt).1
    else Except.error Err.secret) = Except.ok p
  rw [if_pos rfl]
  have hctlen : (iv ++ cfbEncrypt (c.aes (Key c secret salt).1) iv p).length
      = 16 + p.length := by
    rw [List.length_append, hiv, cfbEncrypt_length _ hE16]
  rw [text.Decrypt, if_neg (by omega), if_neg (by omega), if_pos hvk,
      take_app_16 hiv, drop_app_16 hiv, cfbDecrypt_cfbEncrypt _ hE16]

theorem Text_DecryptText_roundtrip_witness :
    Except.bind (Text testCrypto [] [7] [] (List.replicate 16 0))
      (fun m => DecryptText testCrypto [] m) = .ok [7] :=
  Text_DecryptText_roundtrip testCrypto testCrypto_good [] [7] [] (List.replicate 16 0)
    (by simp) (by decide) (by decide) (by simp)
    (by intro x hx; rw [List.eq_of_mem_replicate hx]; norm_num)

theorem Msg.encode_s (b : Bool) (m : Msg) : (Msg.encode b m).s = m.s := by
  cases b <;> rfl

theorem Msg.encode_kh (b : Bool) (m : Msg) : (Msg.encode b m).kh = m.kh := by
  cases b <;> rfl

theorem Msg.encode_dh (b : Bool) (m : Msg) : (Msg.encode b m).dh = m.dh := by
  cases b <;> rfl

theorem Msg.encode_v (b : Bool) (m : Msg) : (Msg.encode b m).v = m.v := by
  cases b <;> rfl

/-- C3: decrypting an envelope with a secret whose derived fingerprint
for the stored salt differs from the stored fingerprint fails with
`SecretMismatch` before any plaintext is produced: `DecryptText` returns
only the error, and `DecryptFile` writes no bytes to the destination. -/
theorem decrypt_wrong_secret (c : Crypto) (hc : GoodCrypto c)
    (s1 s2 p salt iv src : List ℕ) (fname : List Char)
    (hp : p ≠ []) (hpb : ∀ x ∈ p, x < 256) (hsalt : ∀ x ∈ salt, x < 256)
    (_hiv : iv.length = 16) (hivb : ∀ x ∈ iv, x < 256) (hsrc : src ≠ [])
    (hneq : (Key c s2 salt).2 ≠ (Key c s1 salt).2) :
    Except.bind (Text c s1 p salt iv) (fun m => DecryptText c s2 m) = .error .secret ∧
    Except.map (fun mc : Msg × List ℕ => DecryptFile c s2 mc.1 mc.2)
      (File c s1 salt src fname) = .ok ([], some .secret) := by
  obtain ⟨haesLen, haesB, hkdfLen, hxofB⟩ := hc
  have hkeylen : ((Key c s1 salt).1).length = 32 := hkdfLen s1 salt
  have hvk : validKeySize (Key c s1 salt).1 := Or.inr (Or.inr hkeylen)
  have hkh0 : ∀ x ∈ (Key c s1 salt).2, x < 256 :=
    Hash_lt c.xof hxofB ((Key c s1 salt).1 ++ salt)
  constructor
  · have hple : ¬p.length = 0 := fun h => hp (List.eq_nil_of_length_eq_zero h)
    have hEB : ∀ r, ∀ x ∈ c.aes (Key c s1 salt).1 r, x < 256 := fun r => haesB _ r
    have henc : text.Encrypt c.aes p (Key c s1 salt).1 iv =
        .ok (iv ++ cfbEncrypt (c.aes (Key c s1 salt).1) iv p) := by
      rw [text.Encrypt, if_neg hple, if_pos hvk]
    have htext : Text c s1 p salt iv =
        .ok (Msg.encode true
          { emptyMsg with v := iv ++ cfbEncrypt (c.aes (Key c s1 salt).1) iv p,
                          s := salt, kh := (Key c s1 salt).2 }) := by
      simp only [Text, henc]
    rw [htext]
    show DecryptText c s2 (Msg.encode true
        { emptyMsg with v := iv ++ cfbEncrypt (c.aes (Key c s1 salt).1) iv p,
                        s := salt, kh := (Key c s1 salt).2 }) = .error .secret
    have hv0 : ∀ x ∈ iv ++ cfbEncrypt (c.aes (Key c s1 salt).1) iv p, x < 256 := by
      intro x hx
      rw [List.mem_append] at hx
      rcases hx with hx | hx
      · exact hivb x hx
      · exact cfbEncryptAux_lt _ hEB _ _ _ hpb x hx
    have hdec := Msg.decode_encode
        { emptyMsg with v := iv ++ cfbEncrypt (c.aes (Key c s1 salt).1) iv p,
                        s := salt, kh := (Key c s1 salt).2 } true
        hsalt hkh0 (fun x hx => absurd hx (List.not_mem_nil x)) hv0
    simp only [DecryptText, hdec, Msg.encode_s, Msg.encode_kh, Msg.encode_v]
    rw [if_neg hneq]
  · have hstream : stream.Encrypt c.aes src (Key c s1 salt).1 =
        .ok (ofbXor (c.aes (Key c s1 salt).1) zeroIV src) := by
      rw [stream.Encrypt, if_pos hvk]
    have hlenpos : 0 < src.length := List.length_pos.mpr hsrc
    have hsg : ((NewStreamSigner true false).read src).ReaderHashSum c.xof =
        .ok (Hash c.xof src) := by
      show signerHash c.xof (false || decide (0 < src.length)) (some src) =
        .ok (Hash c.xof src)
      rw [decide_eq_true hlenpos]
      rfl
    have hfile : File c s1 salt src fname =
        .ok (Msg.encode false
          { emptyMsg with s := salt, kh := (Key c s1 salt).2,
                          dh := Hash c.xof src, Value := fname },
          ofbXor (c.aes (Key c s1 salt).1) zeroIV src) := by
      simp only [File, hstream, hsg]
    rw [hfile]
    show Except.ok (DecryptFile c s2 (Msg.encode false
        { emptyMsg with s := salt, kh := (Key c s1 salt).2,
                        dh := Hash c.xof src, Value := fname })
        (ofbXor (c.aes (Key c s1 salt).1) zeroIV src)) = .ok ([], some .secret)
    refine congrArg Except.ok ?_
    have hdec2 := Msg.decode_encode
        { emptyMsg with s := salt, kh := (Key c s1 salt).2,
                        dh := Hash c.xof src, Value := fname } false
        hsalt hkh0 (Hash_lt c.xof hxofB src)
        (fun x hx => absurd hx (List.not_mem_nil x))
    simp only [DecryptFile, hdec2, Msg.encode_s, Msg.encode_kh, Msg.encode_dh]
    rw [if_neg hneq]

theorem decrypt_wrong_secret_witness :
    Except.bind (Text testCrypto [0] [7] [] (List.replicate 16 0))
      (fun m => DecryptText testCrypto [1] m) = .error .secret ∧
    Except.map (fun mc : Msg × List ℕ => DecryptFile testCrypto [1] mc.1 mc.2)
      (File testCrypto [0] [] [9] []) = .ok ([], some .secret) :=
  decrypt_wrong_secret testCrypto testCrypto_good [0] [1] [7] [] (List.replicate 16 0)
    [9] [] (by simp) (by decide) (by decide) (by simp)
    (by intro x hx; rw [List.eq_of_mem_replicate hx]; norm_num)
    (by simp) (by decide)

/-- C2 (amended to non-empty streams): encrypting a non-empty byte
stream with `File` and decrypting the produced envelope and file content
with `DecryptFile` under the same secret reproduces the stream exactly
on the destination and the data-digest verification succeeds (no error
is returned). -/
theorem File_DecryptFile_roundtrip (c : Crypto) (hc : GoodCrypto c)
    (secret salt src : List ℕ) (fname : List Char)
    (hsrc : src ≠ []) (hsalt : ∀ x ∈ salt, x < 256) :
    Except.map (fun mc : Msg × List ℕ => DecryptFile c secret mc.1 mc.2)
      (File c secret salt src fname) = .ok (src, none) := by
  obtain ⟨haesLen, haesB, hkdfLen, hxofB⟩ := hc
  have hkeylen : ((Key c secret salt).1).length = 32 := hkdfLen secret salt
  have hvk : validKeySize (Key c secret salt).1 := Or.inr (Or.inr hkeylen)
  have hE16 : ∀ b, (c.aes (Key c secret salt).1 b).length = 16 := fun b => haesLen _ b
  have hkh0 : ∀ x ∈ (Key c secret salt).2, x < 256 :=
    Hash_lt c.xof hxofB ((Key c secret salt).1 ++ salt)
  have hstream : stream.Encrypt c.aes src (Key c secret salt).1 =
      .ok (ofbXor (c.aes (Key c secret salt).1) zeroIV src) := by
    rw [stream.Encrypt, if_pos hvk]
  have hlenpos : 0 < src.length := List.length_pos.mpr hsrc
  have hsg : ((NewStreamSigner true false).read src).ReaderHashSum c.xof =
      .ok (Hash c.xof src) := by
    show signerHash c.xof (false || decide (0 < src.length)) (some src) =
      .ok (Hash c.xof src)
    rw [decide_eq_true hlenpos]
    rfl
  have hfile : File c secret salt src fname =
      .ok (Msg.encode false
        { emptyMsg with s := salt, kh := (Key c secret salt).2,
                        dh := Hash c.xof src, Value := fname },
        ofbXor (c.aes (Key c secret salt).1) zeroIV src) := by
    simp only [File, hstream, hsg]
  rw [hfile]
  show Except.ok (DecryptFile c secret (Msg.encode false
      { emptyMsg with s := salt, kh := (Key c secret salt).2,
                      dh := Hash c.xof src, Value := fname })
      (ofbXor (c.aes (Key c secret salt).1) zeroIV src)) = .ok (src, none)
  refine congrArg Except.ok ?_
  have hdec2 := Msg.decode_encode
      { emptyMsg with s := salt, kh := (Key c secret salt).2,
                      dh := Hash c.xof src, Value := fname } false
      hsalt hkh0 (Hash_lt c.xof hxofB src)
      (fun x hx => absurd hx (List.not_mem_nil x))
  have hstream2 : stream.Decrypt c.aes
      (ofbXor (c.aes (Key c secret salt).1) zeroIV src) (Key c secret salt).1 =
      .ok src := by
    rw [stream.Decrypt, if_pos hvk, ofbXor_ofbXor _ hE16]
  have hsw : ((NewStreamSigner false true).write src).WriterHashSum c.xof =
      .ok (Hash c.xof src) := by
    show signerHash c.xof (false || decide (0 < src.length)) (some src) =
      .ok (Hash c.xof src)
    rw [decide_eq_true hlenpos]
    rfl
  simp only [DecryptFile, hdec2, Msg.encode_s, Msg.encode_kh, Msg.encode_dh,
             hstream2, hsw]
  simp

theorem File_DecryptFile_roundtrip_witness :
    Except.map (fun mc : Msg × List ℕ => DecryptFile testCrypto [] mc.1 mc.2)
      (File testCrypto [] [] [9, 200] []) = .ok ([9, 200], none) :=
  File_DecryptFile_roundtrip testCrypto testCrypto_good [] [] [9, 200] []
    (by simp) (by decide)

/-- C2, counterexample to the claim as stated: for the empty byte stream
the `File` encryption itself fails with `ErrHash`, because no bytes flow
through the read-side signer and its finalization is refused, so the
roundtrip does not succeed for streams "of any length". -/
theorem File_empty_stream_fails :
    Except.map (fun mc : Msg × List ℕ => DecryptFile testCrypto [] mc.1 mc.2)
      (File testCrypto [] [] [] []) = .error .hash := rfl
